import Mathlib

/-!
Verification development for the INI-style configuration patcher of
`InstallAnyDesk.py` (function `ensure_line_in_section` and its two callers
`disable_wayland_in_gdm` / `enable_gdm_autologin`, plus `backup_file`).

Texts are modelled as `List Char`.  The three regular-expression operations the
source performs are embedded with Python `re` semantics spelled out:

* `section_re = ^\[section\]\s*$` with `re.MULTILINE`, used via `.search`:
  anchors are the start of the string and every position following a newline;
  `\s` also matches `'\n'`, and `$` matches at end of string or before a
  newline, so the greedy `\s*` backtracks and the match END is the largest
  position `e` inside the whitespace run after `]` with `e = |s|` or
  `s[e] = '\n'`.
* `^\[.+?\]\s*$` with `re.MULTILINE`, used via `.search(...).start()`:
  `.` does not match a newline, so a match exists at an anchor exactly when the
  line there, after stripping trailing whitespace, is `[` + at least one
  character + `]`.
* `key_re = ^\s*key\s*=\s*.*$` with `re.MULTILINE`, used via `.search` and
  `.sub(repl, block, count=1)`: the leftmost anchor wins; the leading greedy
  `\s*` may consume newlines (tried longest first), the `\s*` around `=`
  likewise, and the match ends at the end of the line holding the first
  non-whitespace position after the `=` (or at the end of the string).
  `.sub` replaces the whole matched span (leading whitespace included) by the
  expansion of the replacement template `f"{key}={value}"`: backslash escapes
  in the template are processed (`expandTemplate`): `\n`, `\t`, … become
  control characters, `\\` a backslash, `\0`(+octal digits) and three-octal-digit
  escapes become code points, `\g<0>` inserts the matched span, other unknown
  ASCII-letter escapes, group references (the patterns define no groups) and a
  trailing lone backslash raise `re.error`.  The raising outcomes are `none`
  in `expandTemplate`; `ensure_line_in_section`, which is total, falls back to
  the unexpanded template there — on those inputs the program raises instead
  of returning, so no claim about a returned value is decided by that branch.

Python `\s` on `str` is the Unicode whitespace class; `isPySpace` lists it.
-/

/-- The code points Python's `\s` matches on `str` patterns. -/
def pySpaceCodes : List Nat :=
  [9, 10, 11, 12, 13, 28, 29, 30, 31, 32, 133, 160, 5760,
   8192, 8193, 8194, 8195, 8196, 8197, 8198, 8199, 8200, 8201, 8202,
   8232, 8233, 8239, 8287, 12288]

/-- Python regex `\s` character class (on `str`). -/
def isPySpace (c : Char) : Bool := pySpaceCodes.contains c.toNat

/-- Length of the maximal whitespace run at the front of `s` (what a greedy
`\s*` consumes before backtracking). -/
def wsRunLen (s : List Char) : Nat := (s.takeWhile isPySpace).length

/-- Index of the last `'\n'` in `l`, if any. -/
def lastNl : List Char → Option Nat
  | [] => none
  | c :: cs =>
    match lastNl cs with
    | some i => some (i + 1)
    | none => if c = '\n' then some 0 else none

/-- Try `\[section\]\s*$` at the start of the suffix `t` (one `^`-anchor of the
MULTILINE search).  Returns the match END relative to `t`: after `[section]`
the greedy `\s*` consumes the whitespace run; `$` holds at the end of the
string, otherwise backtracking stops at the last newline inside the run. -/
def matchSectionAt (t sec : List Char) : Option Nat :=
  let pat := '[' :: (sec ++ [']'])
  if pat.isPrefixOf t then
    let rest := t.drop pat.length
    let r := wsRunLen rest
    if r = rest.length then some t.length
    else
      match lastNl (rest.take r) with
      | some i => some (pat.length + i)
      | none => none
  else none

/-- `section_re.search(conf)` scanning: `pos` is the absolute position of the
suffix, `anch` records whether it is a `^`-anchor (string start or just after a
newline).  Returns `match.end()` of the leftmost match. -/
def sectionSearchAux (sec : List Char) : Nat → Bool → List Char → Option Nat
  | _, _, [] => none
  | pos, anch, c :: cs =>
    match (if anch then matchSectionAt (c :: cs) sec else none) with
    | some e => some (pos + e)
    | none => sectionSearchAux sec (pos + 1) (decide (c = '\n')) cs

/-- Strip trailing Python-whitespace characters. -/
def rstripWs (l : List Char) : List Char := (l.reverse.dropWhile isPySpace).reverse

/-- Does `\[.+?\]\s*$` match at this anchor?  Equivalent to: the line here,
with trailing whitespace stripped, is `[`, at least one character, then `]`. -/
def matchGenericAt (s : List Char) : Bool :=
  match rstripWs (s.takeWhile (fun c => !(c = '\n'))) with
  | '[' :: rest => decide (2 ≤ rest.length) && (rest.getLast? == some ']')
  | _ => false

/-- `re.search(r"^\[.+?\]\s*$", s, re.MULTILINE).start()` scanning. -/
def genericSearchAux : Nat → Bool → List Char → Option Nat
  | _, _, [] => none
  | pos, anch, c :: cs =>
    if anch && matchGenericAt (c :: cs) then some pos
    else genericSearchAux (pos + 1) (decide (c = '\n')) cs

/-- One attempt of `^\s*key\s*=\s*.*$` at an anchor, with the leading `\s*`
consuming exactly `w` characters.  Returns the match end relative to the
anchor: after the literal `key`, a greedy `\s*` (newlines included) must reach
a literal `=`; after `=`, `\s*` consumes its maximal run and `.*$` runs to the
end of that line. -/
def keyAt (s key : List Char) (w : Nat) : Option Nat :=
  if key.isPrefixOf (s.drop w) then
    let c := w + key.length
    let s2 := s.drop c
    let m1 := wsRunLen s2
    match s2.drop m1 with
    | '=' :: rest3 =>
      let m2 := wsRunLen rest3
      let lineLen := ((rest3.drop m2).takeWhile (fun ch => !(ch = '\n'))).length
      some (c + m1 + 1 + m2 + lineLen)
    | _ => none
  else none

/-- Greedy backtracking of the leading `\s*`: try consuming `w, w-1, …, 0`
whitespace characters, first success wins. -/
def keyTryW1 (s key : List Char) : Nat → Option Nat
  | 0 => keyAt s key 0
  | w + 1 =>
    match keyAt s key (w + 1) with
    | some e => some e
    | none => keyTryW1 s key w

/-- Try `^\s*key\s*=\s*.*$` at the start of suffix `s`. -/
def matchKeyAt (s key : List Char) : Option Nat := keyTryW1 s key (wsRunLen s)

/-- `key_re.search` / position of the first match for `.sub(..., count=1)`:
returns the absolute span `(start, end)` of the leftmost match. -/
def keySearchAux (key : List Char) : Nat → Bool → List Char → Option (Nat × Nat)
  | _, _, [] => none
  | pos, anch, c :: cs =>
    match (if anch then matchKeyAt (c :: cs) key else none) with
    | some e => some (pos, pos + e)
    | none => keySearchAux key (pos + 1) (decide (c = '\n')) cs

/-- Decimal digit (template group references / octal escapes). -/
def isDigitB (c : Char) : Bool := 48 ≤ c.toNat && c.toNat ≤ 57

/-- Octal digit. -/
def isOctDigitB (c : Char) : Bool := 48 ≤ c.toNat && c.toNat ≤ 55

/-- ASCII letter (unknown letter escapes in a template are `re.error`). -/
def isAsciiLetterB (c : Char) : Bool :=
  (65 ≤ c.toNat && c.toNat ≤ 90) || (97 ≤ c.toNat && c.toNat ≤ 122)

/-- Value of a digit character. -/
def octV (c : Char) : Nat := c.toNat - 48

/-- One backslash escape of a `re.sub` replacement template
(`re._parser.parse_template` semantics): given the text after the backslash,
produce the expanded characters and the remaining template, or `none` for the
template errors `re.sub` raises — a lone trailing backslash, malformed or
non-zero `\g<…>` group references (these patterns define no groups; `\g<0>`
and `\g<00>` insert `matched`, the text of group 0), numeric group references
`\1`…`\99`, out-of-range three-digit octal escapes, and unknown ASCII-letter
escapes.  `\0`(+up to two octal digits) and all-octal three-digit escapes
become code points, `\n \t \r \v \f \a \b \\` their usual characters, and an
unknown escape of a non-letter is kept verbatim. -/
def escapeStep (matched rest : List Char) : Option (List Char × List Char) :=
  match rest with
  | [] => none
  | c1 :: rest2 =>
    if c1 = 'g' then
      match rest2 with
      | '<' :: rest3 =>
        let name := rest3.takeWhile (fun ch => !(ch = '>'))
        match rest3.drop name.length with
        | '>' :: rest4 =>
          if name.isEmpty then none
          else if name.all (fun ch => ch = '0') then some (matched, rest4)
          else none
        | _ => none
      | _ => none
    else if c1 = '0' then
      match rest2 with
      | [] => some ([Char.ofNat 0], [])
      | d1 :: rest3 =>
        if isOctDigitB d1 then
          match rest3 with
          | [] => some ([Char.ofNat (octV d1)], [])
          | d2 :: rest4 =>
            if isOctDigitB d2 then some ([Char.ofNat (octV d1 * 8 + octV d2)], rest4)
            else some ([Char.ofNat (octV d1)], rest3)
        else some ([Char.ofNat 0], rest2)
    else if isDigitB c1 then
      match rest2 with
      | [] => none
      | d2 :: rest3 =>
        if isDigitB d2 then
          match rest3 with
          | [] => none
          | d3 :: rest4 =>
            if isOctDigitB c1 && isOctDigitB d2 && isOctDigitB d3 then
              if octV c1 * 64 + octV d2 * 8 + octV d3 ≤ 255 then
                some ([Char.ofNat (octV c1 * 64 + octV d2 * 8 + octV d3)], rest4)
              else none
            else none
        else none
    else if c1 = 'n' then some (['\n'], rest2)
    else if c1 = 't' then some (['\t'], rest2)
    else if c1 = 'r' then some (['\r'], rest2)
    else if c1 = 'v' then some ([Char.ofNat 11], rest2)
    else if c1 = 'f' then some ([Char.ofNat 12], rest2)
    else if c1 = 'a' then some ([Char.ofNat 7], rest2)
    else if c1 = 'b' then some ([Char.ofNat 8], rest2)
    else if c1 = '\\' then some (['\\'], rest2)
    else if isAsciiLetterB c1 then none
    else some (['\\', c1], rest2)

/-- Python `re.sub` replacement-template expansion, fuel-indexed for totality:
`fuel` bounds the number of expansion steps, each of which consumes at least
one character, so the initial `tmpl.length` always suffices and the
`0, _ :: _` branch is never reached from `expandTemplate`. -/
def expandTemplateF (matched : List Char) : Nat → List Char → Option (List Char)
  | _, [] => some []
  | 0, _ :: _ => none
  | fuel + 1, c :: rest =>
    if c = '\\' then
      match escapeStep matched rest with
      | none => none
      | some pr => (expandTemplateF matched fuel pr.2).map (fun t => pr.1 ++ t)
    else (expandTemplateF matched fuel rest).map (fun t => c :: t)

/-- `re.sub` template expansion of `tmpl` with group 0 equal to `matched`;
`none` when `re.sub` raises `re.error`. -/
def expandTemplate (matched tmpl : List Char) : Option (List Char) :=
  expandTemplateF matched tmpl.length tmpl

/-- The `if not match:` branch of `ensure_line_in_section`: guarantee a trailing
newline, then append `"\n[section]\nkey=value\n"`. -/
def appendNewSection (conf sec key value : List Char) : List Char :=
  (if conf.getLast? = some '\n' then conf else conf ++ ['\n'])
    ++ ('\n' :: '[' :: (sec ++ (']' :: '\n' :: (key ++ ('=' :: (value ++ ['\n']))))))

/-- The section block of `conf` after the header match end `start`:
`block = conf[start:end]` where `end` is the start of the next generic header
in `conf[start:]`, or the end of the text.  Returns `(block, end - start)`. -/
def blockOf (conf : List Char) (start : Nat) : List Char × Nat :=
  let tail := conf.drop start
  match genericSearchAux 0 true tail with
  | some p => (tail.take p, p)
  | none => (tail, tail.length)

/-- `ensure_line_in_section(conf, section, key, value)` from
`InstallAnyDesk.py`. -/
def ensure_line_in_section (conf sec key value : List Char) : List Char :=
  match sectionSearchAux sec 0 true conf with
  | none => appendNewSection conf sec key value
  | some start =>
    let bl := blockOf conf start
    let block := bl.1
    let newBlock :=
      match keySearchAux key 0 true block with
      | some se =>
        let matched := (block.drop se.1).take (se.2 - se.1)
        let repl :=
          match expandTemplate matched (key ++ ('=' :: value)) with
          | some r => r
          -- on `none` the program raises `re.error` and returns nothing; the
          -- total embedding falls back to the unexpanded template
          | none => key ++ ('=' :: value)
        block.take se.1 ++ (repl ++ block.drop se.2)
      | none =>
        (if block.getLast? = some '\n' then block else block ++ ['\n'])
          ++ (key ++ ('=' :: (value ++ ['\n'])))
    conf.take start ++ (newBlock ++ (conf.drop start).drop bl.2)

/-! ### The orchestrators over an explicit file-system state

`FS` holds the content of `/etc/gdm3/custom.conf` (`none` = file absent), the
contents of the backup copies made so far (in creation order; the timestamped
names are not modelled), and a log of the texts written to the file. -/

structure FS where
  file : Option (List Char)
  backups : List (List Char)
  writes : List (List Char)
  deriving DecidableEq, Repr

inductive PatchResult where
  /-- `backup_file` raised `FileNotFoundError`. -/
  | notFound : PatchResult
  /-- The run completed; the payload is whether the file was rewritten. -/
  | done : Bool → PatchResult
  deriving DecidableEq, Repr

/-- `backup_file`: raises (returns `none`) when the file does not exist,
otherwise records a copy of the current content. -/
def backup_file (fs : FS) : Option FS :=
  match fs.file with
  | none => none
  | some c => some { fs with backups := fs.backups ++ [c] }

/-- The text `disable_wayland_in_gdm` computes from the current content. -/
def waylandPatch (conf : List Char) : List Char :=
  ensure_line_in_section conf "daemon".data "WaylandEnable".data "false".data

/-- The text `enable_gdm_autologin` computes from the current content. -/
def autologinPatch (user conf : List Char) : List Char :=
  ensure_line_in_section
    (ensure_line_in_section conf "daemon".data "AutomaticLoginEnable".data "true".data)
    "daemon".data "AutomaticLogin".data user

/-- `disable_wayland_in_gdm()`: backup, read, patch, write only on change. -/
def disable_wayland_in_gdm (fs : FS) : FS × PatchResult :=
  match backup_file fs with
  | none => (fs, PatchResult.notFound)
  | some fs1 =>
    match fs1.file with
    | none => (fs1, PatchResult.notFound)
    | some conf =>
      let conf2 := waylandPatch conf
      if conf2 = conf then (fs1, PatchResult.done false)
      else ({ fs1 with file := some conf2, writes := fs1.writes ++ [conf2] },
            PatchResult.done true)

/-- `enable_gdm_autologin(user)`: backup, read, patch twice in memory, write
only on change. -/
def enable_gdm_autologin (user : List Char) (fs : FS) : FS × PatchResult :=
  match backup_file fs with
  | none => (fs, PatchResult.notFound)
  | some fs1 =>
    match fs1.file with
    | none => (fs1, PatchResult.notFound)
    | some conf =>
      let conf2 := autologinPatch user conf
      if conf2 = conf then (fs1, PatchResult.done false)
      else ({ fs1 with file := some conf2, writes := fs1.writes ++ [conf2] },
            PatchResult.done true)

/-! ### Line-level vocabulary used to state the claims -/

/-- The first line of a suffix (characters before the first newline). -/
def firstLine (s : List Char) : List Char := s.takeWhile (fun c => !(c = '\n'))

/-- `l` (a line, no trailing newline) is a header line for `section`:
it starts with `[section]` and the remainder is whitespace — exactly when
`^\[section\]\s*$` accepts the line. -/
def isSectionHeaderLineB (l sec : List Char) : Bool :=
  ('[' :: (sec ++ [']'])).isPrefixOf l
    && (l.drop (sec.length + 2)).all isPySpace

/-- `SufAt s anch t`: `t` is a suffix of `s` sitting at a `^`-anchor of the
MULTILINE scan of `s`, where `anch` tells whether `s` itself is at an anchor.
These are exactly the suffixes the `…SearchAux` scans try. -/
inductive SufAt : List Char → Bool → List Char → Prop where
  | refl (s : List Char) : SufAt s true s
  | tail {c : Char} {cs t : List Char} {anch : Bool} :
      SufAt cs (decide (c = '\n')) t → SufAt (c :: cs) anch t

/-- The lines of a text, split at newline characters (the last line is the
possibly empty segment after the final newline). -/
def linesOf : List Char → List (List Char)
  | [] => [[]]
  | c :: cs =>
    if c = '\n' then [] :: linesOf cs
    else
      match linesOf cs with
      | [] => [[c]]
      | l :: ls => (c :: l) :: ls

/-! ### Concrete evaluations: the header-glue defect and the end-to-end scenario

On any body whose first content line is the targeted key line, the leftmost
match of `^\s*key\s*=\s*.*$` starts at block position 0 and its leading `\s*`
consumes the newline that terminates the `[section]` header, so the
substitution glues `key=value` directly onto the header text. -/

/-- Claim C1: applying the patch twice with the same arguments is claimed to
equal applying it once.  The code violates this: on
`"[daemon]\nWaylandEnable=true\n"` (valid section, key and value) the first
application destroys the header newline, producing
`"[daemon]WaylandEnable=false\n"`, and the second application no longer finds
the section and appends a fresh block, so the results differ. -/
theorem c1_not_idempotent_at_failing_input :
    ensure_line_in_section "[daemon]\nWaylandEnable=true\n".data
        "daemon".data "WaylandEnable".data "false".data
      = "[daemon]WaylandEnable=false\n".data
    ∧ ensure_line_in_section
        (ensure_line_in_section "[daemon]\nWaylandEnable=true\n".data
          "daemon".data "WaylandEnable".data "false".data)
        "daemon".data "WaylandEnable".data "false".data
      ≠ ensure_line_in_section "[daemon]\nWaylandEnable=true\n".data
          "daemon".data "WaylandEnable".data "false".data := by
  constructor
  · decide
  · decide

/-- Claim C2: the spec's whitespace-tolerance example.  On
`"[daemon]\nWaylandEnable = true\n"` the claim says exactly the matched line's
own text is substituted, leaving the separating newlines unchanged, which
would give `"[daemon]\nWaylandEnable=false\n"`.  The code instead also
consumes the newline ending the header line. -/
theorem c2_replacement_eats_header_newline :
    ensure_line_in_section "[daemon]\nWaylandEnable = true\n".data
        "daemon".data "WaylandEnable".data "false".data
      = "[daemon]WaylandEnable=false\n".data
    ∧ ("[daemon]WaylandEnable=false\n".data : List Char)
      ≠ "[daemon]\nWaylandEnable=false\n".data := by
  constructor
  · decide
  · decide

/-- Claim C3: the frame property.  Everything outside the targeted section's
body — in particular the matched header line itself — is claimed to be
byte-identical after the patch.  On
`"[security]\nS=2\n[daemon]\nWaylandEnable=0\n"` the region outside the body is
`"[security]\nS=2\n[daemon]\n"`, yet the output does not even retain it as a
prefix: the header's terminating newline is deleted. -/
theorem c3_frame_violated_at_failing_input :
    ensure_line_in_section "[security]\nS=2\n[daemon]\nWaylandEnable=0\n".data
        "daemon".data "WaylandEnable".data "false".data
      = "[security]\nS=2\n[daemon]WaylandEnable=false\n".data
    ∧ List.isPrefixOf "[security]\nS=2\n[daemon]\n".data
        (ensure_line_in_section "[security]\nS=2\n[daemon]\nWaylandEnable=0\n".data
          "daemon".data "WaylandEnable".data "false".data) = false := by
  constructor
  · decide
  · decide

/-- Claim C4: the end-to-end scenario.  Patching
`"[daemon]\nAutomaticLoginEnable=false\n"` appends the key line, a second
application leaves the text fixed, and the orchestrator therefore reports no
change (`done false`) on the second run (after taking its backup). -/
theorem c4_end_to_end_scenario :
    ensure_line_in_section "[daemon]\nAutomaticLoginEnable=false\n".data
        "daemon".data "WaylandEnable".data "false".data
      = "[daemon]\nAutomaticLoginEnable=false\nWaylandEnable=false\n".data
    ∧ ensure_line_in_section
        "[daemon]\nAutomaticLoginEnable=false\nWaylandEnable=false\n".data
        "daemon".data "WaylandEnable".data "false".data
      = "[daemon]\nAutomaticLoginEnable=false\nWaylandEnable=false\n".data
    ∧ disable_wayland_in_gdm
        ⟨some "[daemon]\nAutomaticLoginEnable=false\nWaylandEnable=false\n".data, [], []⟩
      = (⟨some "[daemon]\nAutomaticLoginEnable=false\nWaylandEnable=false\n".data,
          ["[daemon]\nAutomaticLoginEnable=false\nWaylandEnable=false\n".data], []⟩,
         PatchResult.done false) := by
  refine ⟨by decide, by decide, by decide⟩

/-- Claim C7: a patch invocation fails with the file-not-found error when the
target file is absent, leaving the state untouched, and every invocation that
modifies the file has first recorded a backup whose content equals the
pre-change file content (the backup is appended by `backup_file` before the
patched text is computed or written). -/
theorem c7_backup_and_not_found (u conf : List Char) (fs0 fs1 fs2 fsW fsA : FS)
    (h0 : fs0.file = none)
    (h1 : fs1.file = some conf)
    (hW : disable_wayland_in_gdm fs1 = (fsW, PatchResult.done true))
    (h2 : fs2.file = some conf)
    (hA : enable_gdm_autologin u fs2 = (fsA, PatchResult.done true)) :
    disable_wayland_in_gdm fs0 = (fs0, PatchResult.notFound)
    ∧ enable_gdm_autologin u fs0 = (fs0, PatchResult.notFound)
    ∧ fsW.backups = fs1.backups ++ [conf]
    ∧ fsA.backups = fs2.backups ++ [conf] := by
  refine ⟨?_, ?_, ?_, ?_⟩
  · simp [disable_wayland_in_gdm, backup_file, h0]
  · simp [enable_gdm_autologin, backup_file, h0]
  · simp only [disable_wayland_in_gdm, backup_file, h1] at hW
    split at hW
    · have hsnd := congrArg (fun p => p.2) hW
      simp at hsnd
    · have hfst := congrArg (fun p => (p.1).backups) hW
      simpa using hfst.symm
  · simp only [enable_gdm_autologin, backup_file, h2] at hA
    split at hA
    · have hsnd := congrArg (fun p => p.2) hA
      simp at hsnd
    · have hfst := congrArg (fun p => (p.1).backups) hA
      simpa using hfst.symm

/-- Witness for C7 at a concrete state: the file `"x\n"` exists, both patchers
change it, and the conclusions hold at the empty state with no file. -/
theorem c7_backup_and_not_found_witness :
    disable_wayland_in_gdm ⟨none, [], []⟩ = (⟨none, [], []⟩, PatchResult.notFound)
    ∧ enable_gdm_autologin "u".data ⟨none, [], []⟩
      = (⟨none, [], []⟩, PatchResult.notFound)
    ∧ (FS.mk (some "x\n\n[daemon]\nWaylandEnable=false\n".data) ["x\n".data]
        ["x\n\n[daemon]\nWaylandEnable=false\n".data]).backups = [] ++ ["x\n".data]
    ∧ (FS.mk
        (some "x\n\n[daemon]\nAutomaticLoginEnable=true\nAutomaticLogin=u\n".data)
        ["x\n".data]
        ["x\n\n[daemon]\nAutomaticLoginEnable=true\nAutomaticLogin=u\n".data]).backups
      = [] ++ ["x\n".data] :=
  c7_backup_and_not_found "u".data "x\n".data
    ⟨none, [], []⟩ ⟨some "x\n".data, [], []⟩ ⟨some "x\n".data, [], []⟩
    (FS.mk (some "x\n\n[daemon]\nWaylandEnable=false\n".data) ["x\n".data]
      ["x\n\n[daemon]\nWaylandEnable=false\n".data])
    (FS.mk
      (some "x\n\n[daemon]\nAutomaticLoginEnable=true\nAutomaticLogin=u\n".data)
      ["x\n".data]
      ["x\n\n[daemon]\nAutomaticLoginEnable=true\nAutomaticLogin=u\n".data])
    rfl rfl (by decide) rfl (by decide)

/-- Claim C8: when the patched text equals the current content the run reports
no change and performs no write (the write log and the stored file are
untouched); otherwise the file is overwritten with the new text and the write
is logged.  In both cases the resulting file content is the locate-and-upsert
transformation of the previous content (`waylandPatch` for
`disable_wayland_in_gdm`, the two-key composition `autologinPatch` for
`enable_gdm_autologin`). -/
theorem c8_write_iff_changed (fs : FS) (u conf : List Char) (h : fs.file = some conf) :
    (disable_wayland_in_gdm fs).1.file = some (waylandPatch conf)
    ∧ (waylandPatch conf = conf →
        (disable_wayland_in_gdm fs).1 = { fs with backups := fs.backups ++ [conf] }
        ∧ (disable_wayland_in_gdm fs).2 = PatchResult.done false)
    ∧ (waylandPatch conf ≠ conf →
        (disable_wayland_in_gdm fs).1
          = { fs with backups := fs.backups ++ [conf],
                      file := some (waylandPatch conf),
                      writes := fs.writes ++ [waylandPatch conf] }
        ∧ (disable_wayland_in_gdm fs).2 = PatchResult.done true)
    ∧ (enable_gdm_autologin u fs).1.file = some (autologinPatch u conf)
    ∧ (autologinPatch u conf = conf →
        (enable_gdm_autologin u fs).1 = { fs with backups := fs.backups ++ [conf] }
        ∧ (enable_gdm_autologin u fs).2 = PatchResult.done false)
    ∧ (autologinPatch u conf ≠ conf →
        (enable_gdm_autologin u fs).1
          = { fs with backups := fs.backups ++ [conf],
                      file := some (autologinPatch u conf),
                      writes := fs.writes ++ [autologinPatch u conf] }
        ∧ (enable_gdm_autologin u fs).2 = PatchResult.done true) := by
  by_cases hw : waylandPatch conf = conf
  · by_cases ha : autologinPatch u conf = conf
    · refine ⟨?_, fun _ => ⟨?_, ?_⟩, fun hne => absurd hw hne, ?_,
        fun _ => ⟨?_, ?_⟩, fun hne => absurd ha hne⟩
        <;> simp [disable_wayland_in_gdm, enable_gdm_autologin, backup_file, h, hw, ha]
    · refine ⟨?_, fun _ => ⟨?_, ?_⟩, fun hne => absurd hw hne, ?_,
        fun heq => absurd heq ha, fun _ => ⟨?_, ?_⟩⟩
        <;> simp [disable_wayland_in_gdm, enable_gdm_autologin, backup_file, h, hw, ha]
  · by_cases ha : autologinPatch u conf = conf
    · refine ⟨?_, fun heq => absurd heq hw, fun _ => ⟨?_, ?_⟩, ?_,
        fun _ => ⟨?_, ?_⟩, fun hne => absurd ha hne⟩
        <;> simp [disable_wayland_in_gdm, enable_gdm_autologin, backup_file, h, hw, ha]
    · refine ⟨?_, fun heq => absurd heq hw, fun _ => ⟨?_, ?_⟩, ?_,
        fun heq => absurd heq ha, fun _ => ⟨?_, ?_⟩⟩
        <;> simp [disable_wayland_in_gdm, enable_gdm_autologin, backup_file, h, hw, ha]

/-- Witness for C8 at a concrete state whose file `"x\n"` is changed by both
patch operations. -/
theorem c8_write_iff_changed_witness :
    (disable_wayland_in_gdm ⟨some "x\n".data, [], []⟩).1.file
      = some (waylandPatch "x\n".data) :=
  (c8_write_iff_changed ⟨some "x\n".data, [], []⟩ "u".data "x\n".data rfl).1

/-! ### General list lemmas -/

theorem twAppend {q : Char → Bool} {u : List Char} (v : List Char)
    (h : ∀ a ∈ u, q a = true) :
    (u ++ v).takeWhile q = u ++ v.takeWhile q := by
  induction u with
  | nil => simp
  | cons a u ih =>
    have ha : q a = true := h a (List.mem_cons_self a u)
    simp [List.takeWhile_cons, ha, ih (fun b hb => h b (List.mem_cons_of_mem a hb))]

theorem twAll (q : Char → Bool) (l : List Char) : (l.takeWhile q).all q = true := by
  induction l with
  | nil => rfl
  | cons a l ih =>
    by_cases ha : q a = true
    · simp [List.takeWhile_cons, ha, ih]
    · simp [List.takeWhile_cons, ha]

theorem twLenLe (q : Char → Bool) (l : List Char) : (l.takeWhile q).length ≤ l.length := by
  induction l with
  | nil => simp
  | cons a l ih =>
    by_cases ha : q a = true
    · simpa [List.takeWhile_cons, ha] using Nat.succ_le_succ ih
    · simp [List.takeWhile_cons, ha]

theorem twTake (q : Char → Bool) (l : List Char) :
    l.take (l.takeWhile q).length = l.takeWhile q := by
  induction l with
  | nil => rfl
  | cons a l ih =>
    by_cases ha : q a = true
    · simp [List.takeWhile_cons, ha, List.take_succ_cons, ih]
    · simp [List.takeWhile_cons, ha]

theorem twEqSelf {q : Char → Bool} {l : List Char} (h : l.all q = true) :
    l.takeWhile q = l := by
  induction l with
  | nil => rfl
  | cons a l ih =>
    simp only [List.all_cons, Bool.and_eq_true] at h
    simp [List.takeWhile_cons, h.1, ih h.2]

theorem allOfTwLenEq {q : Char → Bool} {l : List Char}
    (h : (l.takeWhile q).length = l.length) : l.all q = true := by
  induction l with
  | nil => rfl
  | cons a l ih =>
    by_cases ha : q a = true
    · rw [List.takeWhile_cons, if_pos ha] at h
      simp only [List.length_cons, Nat.add_right_cancel_iff] at h
      simp [List.all_cons, ha, ih h]
    · rw [List.takeWhile_cons, if_neg ha] at h
      simp at h

theorem allSubTw {q p : Char → Bool} {l : List Char} (h : l.all q = true) :
    (l.takeWhile p).all q = true := by
  induction l with
  | nil => rfl
  | cons a l ih =>
    simp only [List.all_cons, Bool.and_eq_true] at h
    by_cases hp : p a = true
    · simp [List.takeWhile_cons, hp, List.all_cons, h.1, ih h.2]
    · simp [List.takeWhile_cons, hp]

theorem twLenBound {q : Char → Bool} {c : Char} (u v : List Char) (hc : q c = false) :
    ((u ++ c :: v).takeWhile q).length ≤ u.length := by
  induction u with
  | nil => simp [List.takeWhile_cons, hc]
  | cons a u ih =>
    by_cases ha : q a = true
    · simpa [List.takeWhile_cons, ha] using Nat.succ_le_succ ih
    · simp [List.takeWhile_cons, ha]

theorem isPrefixOfEx {p l : List Char} (h : p.isPrefixOf l = true) : ∃ r, l = p ++ r := by
  induction p generalizing l with
  | nil => exact ⟨l, rfl⟩
  | cons a p ih =>
    cases l with
    | nil => simp [List.isPrefixOf] at h
    | cons b l =>
      simp only [List.isPrefixOf, Bool.and_eq_true, beq_iff_eq] at h
      obtain ⟨r, hr⟩ := ih h.2
      exact ⟨r, by simp [h.1, hr]⟩

theorem isPrefixOfAppend (p r : List Char) : p.isPrefixOf (p ++ r) = true := by
  induction p with
  | nil => simp [List.isPrefixOf]
  | cons a p ih => simp [List.isPrefixOf, ih]

theorem dropWhileHead (q : Char → Bool) (l : List Char) :
    l.dropWhile q = [] ∨ ∃ c d, l.dropWhile q = c :: d ∧ q c = false := by
  induction l with
  | nil => exact Or.inl rfl
  | cons a l ih =>
    by_cases ha : q a = true
    · rw [List.dropWhile_cons, if_pos ha]; exact ih
    · refine Or.inr ⟨a, l, by rw [List.dropWhile_cons, if_neg ha], ?_⟩
      revert ha; cases q a <;> simp

theorem lastNlLt {l : List Char} {i : Nat} (h : lastNl l = some i) : i < l.length := by
  induction l generalizing i with
  | nil => simp [lastNl] at h
  | cons c cs ih =>
    cases hcs : lastNl cs with
    | some j =>
      simp only [lastNl, hcs] at h
      cases h
      exact Nat.succ_lt_succ (ih hcs)
    | none =>
      simp only [lastNl, hcs] at h
      by_cases hc : c = '\n'
      · rw [if_pos hc] at h; cases h; simp
      · rw [if_neg hc] at h; cases h

theorem lastNlSomeMem {l : List Char} {i : Nat} (h : lastNl l = some i) : '\n' ∈ l := by
  induction l generalizing i with
  | nil => simp [lastNl] at h
  | cons c cs ih =>
    cases hcs : lastNl cs with
    | some j => exact List.mem_cons_of_mem c (ih hcs)
    | none =>
      simp only [lastNl, hcs] at h
      by_cases hc : c = '\n'
      · subst hc; exact List.mem_cons_self _ _
      · rw [if_neg hc] at h; cases h

theorem nlMemLastNl {l : List Char} (h : '\n' ∈ l) : ∃ i, lastNl l = some i := by
  induction l with
  | nil => simp at h
  | cons c cs ih =>
    cases hcs : lastNl cs with
    | some j => exact ⟨j + 1, by simp [lastNl, hcs]⟩
    | none =>
      have hc : c = '\n' := by
        rcases List.mem_cons.mp h with h1 | h2
        · exact h1.symm
        · obtain ⟨j, hj⟩ := ih h2
          rw [hj] at hcs
          cases hcs
      exact ⟨0, by simp [lastNl, hcs, hc]⟩

theorem flWsOfNlInRun {l : List Char} (h : '\n' ∈ l.takeWhile isPySpace) :
    (l.takeWhile (fun c => !(c = '\n'))).all isPySpace = true := by
  induction l with
  | nil => simp at h
  | cons a l ih =>
    by_cases hws : isPySpace a = true
    · rw [List.takeWhile_cons, if_pos hws] at h
      by_cases hnl : a = '\n'
      · subst hnl
        simp [List.takeWhile_cons]
      · have hmem : '\n' ∈ l.takeWhile isPySpace := by
          rcases List.mem_cons.mp h with h1 | h2
          · exact absurd h1.symm hnl
          · exact h2
        simp [List.takeWhile_cons, hnl, List.all_cons, hws, ih hmem]
    · rw [List.takeWhile_cons, if_neg hws] at h
      simp at h

/-! ### Anchored suffixes and lines -/

theorem sufAtSuffix {s t : List Char} {anch : Bool} (h : SufAt s anch t) :
    ∃ u, s = u ++ t := by
  induction h with
  | refl s => exact ⟨[], rfl⟩
  | @tail c cs t anch h ih =>
    obtain ⟨u, hu⟩ := ih
    exact ⟨c :: u, by simp [hu]⟩

theorem sufAtLen {s t : List Char} {anch : Bool} (h : SufAt s anch t) :
    t.length ≤ s.length := by
  obtain ⟨u, hu⟩ := sufAtSuffix h
  subst hu
  simp

theorem sufAtCases {s t : List Char} {anch : Bool} (h : SufAt s anch t) :
    (anch = true ∧ t = s) ∨ ∃ u, s = u ++ '\n' :: t := by
  induction h with
  | refl s => exact Or.inl ⟨rfl, rfl⟩
  | @tail c cs t anch h ih =>
    rcases ih with ⟨hflag, hteq⟩ | ⟨u, hu⟩
    · have hc : c = '\n' := of_decide_eq_true hflag
      subst hc
      subst hteq
      exact Or.inr ⟨[], rfl⟩
    · exact Or.inr ⟨c :: u, by simp [hu]⟩

theorem sufAtOfAppend (u t : List Char) (anch : Bool) : SufAt (u ++ '\n' :: t) anch t := by
  induction u generalizing anch with
  | nil =>
    have hd : (decide ('\n' = '\n')) = true := rfl
    exact SufAt.tail (hd ▸ SufAt.refl t)
  | cons a u ih => exact SufAt.tail (ih _)

theorem linesOfHead (s : List Char) : ∃ ls, linesOf s = firstLine s :: ls := by
  induction s with
  | nil => exact ⟨[], rfl⟩
  | cons c cs ih =>
    by_cases hc : c = '\n'
    · subst hc
      exact ⟨linesOf cs, by simp [linesOf, firstLine, List.takeWhile_cons]⟩
    · obtain ⟨ls, hls⟩ := ih
      refine ⟨ls, ?_⟩
      simp [linesOf, hc, hls, firstLine, List.takeWhile_cons]

theorem linesOfAppendNl (u t : List Char) :
    linesOf (u ++ '\n' :: t) = linesOf u ++ linesOf t := by
  induction u with
  | nil => simp [linesOf]
  | cons c u ih =>
    by_cases hc : c = '\n'
    · subst hc
      simp [linesOf, ih]
    · obtain ⟨ls, hls⟩ := linesOfHead u
      rw [hls] at ih
      simp [linesOf, hc, ih, hls]

theorem flMemLinesOf (s : List Char) : firstLine s ∈ linesOf s := by
  obtain ⟨ls, hls⟩ := linesOfHead s
  rw [hls]
  exact List.mem_cons_self _ _

theorem sufAtLineMem {s t : List Char} {anch : Bool} (h : SufAt s anch t) :
    firstLine t ∈ linesOf s := by
  rcases sufAtCases h with ⟨-, rfl⟩ | ⟨u, rfl⟩
  · exact flMemLinesOf t
  · rw [linesOfAppendNl]
    exact List.mem_append_right _ (flMemLinesOf t)

/-! ### The section matcher against header lines -/

theorem patNlFree {sec : List Char} (hnl : '\n' ∉ sec) :
    ∀ a ∈ '[' :: (sec ++ [']']), (fun c => !(c = '\n')) a = true := by
  intro a ha
  rcases List.mem_cons.mp ha with rfl | ha2
  · simp
  · rcases List.mem_append.mp ha2 with ha3 | ha4
    · have : a ≠ '\n' := fun h => hnl (h ▸ ha3)
      simp [this]
    · have : a = ']' := by simpa using ha4
      subst this
      simp

theorem patLenEq (sec : List Char) : ('[' :: (sec ++ [']'])).length = sec.length + 2 := by
  simp

theorem headerOfMatch {t sec : List Char} (hnl : '\n' ∉ sec)
    (h : (matchSectionAt t sec).isSome = true) :
    isSectionHeaderLineB (firstLine t) sec = true := by
  simp only [matchSectionAt] at h
  by_cases hp : ('[' :: (sec ++ [']'])).isPrefixOf t = true
  · rw [if_pos hp] at h
    obtain ⟨rest0, hrest⟩ := isPrefixOfEx hp
    subst hrest
    rw [List.drop_left ('[' :: (sec ++ [']'])) rest0] at h
    have hfl : firstLine (('[' :: (sec ++ [']'])) ++ rest0)
        = ('[' :: (sec ++ [']'])) ++ firstLine rest0 := by
      exact twAppend rest0 (patNlFree hnl)
    have hflws : (firstLine rest0).all isPySpace = true := by
      by_cases hr : wsRunLen rest0 = rest0.length
      · have hall : rest0.all isPySpace = true := allOfTwLenEq hr
        exact allSubTw hall
      · rw [if_neg hr] at h
        cases hln : lastNl (rest0.take (wsRunLen rest0)) with
        | none => rw [hln] at h; simp at h
        | some i =>
          have hmem : '\n' ∈ rest0.take (wsRunLen rest0) := lastNlSomeMem hln
          rw [wsRunLen, twTake isPySpace rest0] at hmem
          exact flWsOfNlInRun hmem
    rw [isSectionHeaderLineB, hfl, Bool.and_eq_true]
    constructor
    · exact isPrefixOfAppend _ _
    · have hd : List.drop (sec.length + 2) (('[' :: (sec ++ [']'])) ++ firstLine rest0)
          = firstLine rest0 := by
        rw [← patLenEq sec]
        exact List.drop_left _ _
      rw [hd]
      exact hflws
  · rw [if_neg hp] at h
    simp at h

theorem matchOfHeader {t sec : List Char}
    (h : isSectionHeaderLineB (firstLine t) sec = true) :
    (matchSectionAt t sec).isSome = true := by
  rw [isSectionHeaderLineB, Bool.and_eq_true] at h
  obtain ⟨h1, h2⟩ := h
  obtain ⟨r1, hr1⟩ := isPrefixOfEx h1
  have hsplit : t = firstLine t ++ t.dropWhile (fun c => !(c = '\n')) :=
    (List.takeWhile_append_dropWhile _ _).symm
  have ht : t = ('[' :: (sec ++ [']'])) ++ (r1 ++ t.dropWhile (fun c => !(c = '\n'))) := by
    conv_lhs => rw [hsplit, hr1]
    rw [List.append_assoc]
  have hr1ws : r1.all isPySpace = true := by
    have hd2 : List.drop (sec.length + 2) (('[' :: (sec ++ [']'])) ++ r1) = r1 := by
      rw [← patLenEq sec]
      exact List.drop_left _ _
    rw [hr1, hd2] at h2
    exact h2
  have hp : ('[' :: (sec ++ [']'])).isPrefixOf t = true := by
    rw [ht]; exact isPrefixOfAppend _ _
  simp only [matchSectionAt, if_pos hp]
  have hdrop : t.drop ('[' :: (sec ++ [']'])).length
      = r1 ++ t.dropWhile (fun c => !(c = '\n')) := by
    conv_lhs => rw [ht]
    exact List.drop_left _ _
  rw [hdrop]
  rcases dropWhileHead (fun c => !(c = '\n')) t with hD | ⟨c, d, hD, hcq⟩
  · rw [hD]
    have hall : (r1 ++ ([] : List Char)).all isPySpace = true := by simpa using hr1ws
    have : wsRunLen (r1 ++ []) = (r1 ++ []).length := by
      rw [wsRunLen, twEqSelf hall]
    rw [if_pos this]
    simp
  · have hc : c = '\n' := by
      have h3 := hcq
      simp at h3
      exact h3
    subst hc
    rw [hD]
    by_cases hr : wsRunLen (r1 ++ '\n' :: d) = (r1 ++ '\n' :: d).length
    · rw [if_pos hr]; simp
    · rw [if_neg hr]
      have hmem : '\n' ∈ (r1 ++ '\n' :: d).take (wsRunLen (r1 ++ '\n' :: d)) := by
        rw [wsRunLen, twTake isPySpace (r1 ++ '\n' :: d)]
        rw [twAppend ('\n' :: d) (fun a ha => (List.all_eq_true.mp hr1ws) a ha)]
        refine List.mem_append_right _ ?_
        rw [List.takeWhile_cons]
        simp [show isPySpace '\n' = true from rfl]
      obtain ⟨i, hi⟩ := nlMemLastNl hmem
      rw [hi]
      simp

theorem sectionSearchNone {sec : List Char} :
    ∀ (s : List Char) (pos : Nat) (anch : Bool),
      (∀ t, SufAt s anch t → matchSectionAt t sec = none) →
      sectionSearchAux sec pos anch s = none := by
  intro s
  induction s with
  | nil => intro pos anch h; rfl
  | cons c cs ih =>
    intro pos anch h
    have hcur : (if anch then matchSectionAt (c :: cs) sec else none) = none := by
      cases anch
      · rfl
      · simpa using h (c :: cs) (SufAt.refl _)
    simp only [sectionSearchAux, hcur]
    exact ih (pos + 1) _ (fun t ht => h t (SufAt.tail ht))

/-- Claim C5: when no line of the text is a header for the section, the patch
returns the input (with a newline appended first when it does not already end
with one) extended at the end by exactly `"\n[section]\nkey=value\n"`.
A section name containing a newline cannot occur on a single header line, so
the claim's premise presumes `'\n' ∉ sec`. -/
theorem c5_missing_section_appended (conf sec key value : List Char)
    (hnl : '\n' ∉ sec)
    (h : ∀ l ∈ linesOf conf, isSectionHeaderLineB l sec = false) :
    ensure_line_in_section conf sec key value
      = conf ++ ((if conf.getLast? = some '\n' then [] else ['\n'])
          ++ ('\n' :: '[' :: (sec ++ (']' :: '\n' :: (key ++ ('=' :: (value ++ ['\n']))))))) := by
  have hnone : sectionSearchAux sec 0 true conf = none := by
    apply sectionSearchNone
    intro t ht
    cases hm : matchSectionAt t sec with
    | none => rfl
    | some e =>
      have hs : (matchSectionAt t sec).isSome = true := by simp [hm]
      have hh := headerOfMatch hnl hs
      have hf := h (firstLine t) (sufAtLineMem ht)
      rw [hh] at hf
      cases hf
  simp only [ensure_line_in_section, hnone, appendNewSection]
  by_cases hlast : conf.getLast? = some '\n'
  · simp [hlast]
  · simp [hlast]

/-- Witness for C5 on the text `"x=1\n"`, which has no `[daemon]` header. -/
theorem c5_missing_section_appended_witness :
    ensure_line_in_section "x=1\n".data "daemon".data "WaylandEnable".data "false".data
      = "x=1\n".data ++ ((if ("x=1\n".data : List Char).getLast? = some '\n' then [] else ['\n'])
          ++ ('\n' :: '[' :: ("daemon".data
              ++ (']' :: '\n' :: ("WaylandEnable".data ++ ('=' :: ("false".data ++ ['\n']))))))) :=
  c5_missing_section_appended "x=1\n".data "daemon".data "WaylandEnable".data "false".data
    (by decide) (by decide)

theorem expandTemplateFNoBackslash (matched : List Char) :
    ∀ (fuel : Nat) (tmpl : List Char), tmpl.length ≤ fuel → '\\' ∉ tmpl →
      expandTemplateF matched fuel tmpl = some tmpl := by
  intro fuel
  induction fuel with
  | zero =>
    intro tmpl hlen hnb
    cases tmpl with
    | nil => rfl
    | cons c rest => simp at hlen
  | succ fuel ih =>
    intro tmpl hlen hnb
    cases tmpl with
    | nil => rfl
    | cons c rest =>
      have hc : ¬ (c = '\\') := by
        intro h
        exact hnb (h ▸ List.mem_cons_self c rest)
      have hrest : '\\' ∉ rest := fun h => hnb (List.mem_cons_of_mem c h)
      have hlen2 : rest.length ≤ fuel := by
        simp only [List.length_cons] at hlen
        omega
      rw [expandTemplateF, if_neg hc, ih rest hlen2 hrest]
      rfl

theorem expandTemplateNoBackslash {tmpl : List Char} (matched : List Char)
    (hnb : '\\' ∉ tmpl) : expandTemplate matched tmpl = some tmpl :=
  expandTemplateFNoBackslash matched tmpl.length tmpl (Nat.le_refl _) hnb

/-- Claim C10 counterexample, in two parts.  With the newline-free value
`"\n"` (backslash then `n`, inside the claim's domain) `re.sub` expands the
replacement template `k=\n` to a real newline: the output is
`"[a]k=\n\n"` (glued, with actual newlines), which contains no backslash at
all, so the literal substring `key=value` cannot occur in it.  A
backslash-bearing key fails the same way. -/
theorem c10_backslash_counterexample :
    ensure_line_in_section "[a]\nk=1\n".data "a".data "k".data "\\n".data
      = "[a]k=\n\n".data
    ∧ ¬ (∃ u v, ensure_line_in_section "[a]\nk=1\n".data "a".data "k".data "\\n".data
        = u ++ (("k".data ++ ('=' :: "\\n".data)) ++ v))
    ∧ ensure_line_in_section "[a]\n\\n=1\n".data "a".data "\\n".data "2".data
      = "[a]\n=2\n".data
    ∧ ¬ (∃ u v, ensure_line_in_section "[a]\n\\n=1\n".data "a".data "\\n".data "2".data
        = u ++ (("\\n".data ++ ('=' :: "2".data)) ++ v)) := by
  refine ⟨by decide, ?_, by decide, ?_⟩
  · rintro ⟨u, v, h⟩
    rw [show ensure_line_in_section "[a]\nk=1\n".data "a".data "k".data "\\n".data
        = "[a]k=\n\n".data from by decide] at h
    have hmem : '\\' ∈ ("[a]k=\n\n".data : List Char) := by
      rw [h]
      exact List.mem_append_right _ (List.mem_append_left _
        (List.mem_append_right _ (List.mem_cons_of_mem _ (List.mem_cons_self _ _))))
    exact absurd hmem (by decide)
  · rintro ⟨u, v, h⟩
    rw [show ensure_line_in_section "[a]\n\\n=1\n".data "a".data "\\n".data "2".data
        = "[a]\n=2\n".data from by decide] at h
    have hmem : '\\' ∈ ("[a]\n=2\n".data : List Char) := by
      rw [h]
      exact List.mem_append_right _ (List.mem_append_left _
        (List.mem_append_left _ (List.mem_cons_self _ _)))
    exact absurd hmem (by decide)

/-- Claim C10 as amended: for every text and every valid section name, key and
value — where, as the counterexample forces, key and value must additionally
be free of backslashes, since `re.sub` treats the replacement
`f"{key}={value}"` as an escape-processed template — the output of
`ensure_line_in_section` contains `key=value` as a contiguous substring: the
upsert leaves the requested pair present in every branch. -/
theorem c10_key_value_present (conf sec key value : List Char)
    (hsec : sec ≠ [] ∧ '[' ∉ sec ∧ ']' ∉ sec)
    (hkey : key ≠ [] ∧ '=' ∉ key ∧ '\n' ∉ key ∧ '\\' ∉ key)
    (hval : '\n' ∉ value ∧ '\\' ∉ value) :
    ∃ u v, ensure_line_in_section conf sec key value = u ++ ((key ++ ('=' :: value)) ++ v) := by
  have hnb : '\\' ∉ (key ++ ('=' :: value)) := by
    intro hm
    rcases List.mem_append.mp hm with h | h
    · exact hkey.2.2.2 h
    · rcases List.mem_cons.mp h with h | h
      · simp at h
      · exact hval.2 h
  cases hs : sectionSearchAux sec 0 true conf with
  | none =>
    refine ⟨(if conf.getLast? = some '\n' then conf else conf ++ ['\n'])
        ++ ('\n' :: '[' :: (sec ++ [']', '\n'])), ['\n'], ?_⟩
    simp only [ensure_line_in_section, hs, appendNewSection]
    simp [List.append_assoc]
  | some start =>
    cases hk : keySearchAux key 0 true (blockOf conf start).1 with
    | none =>
      refine ⟨conf.take start
          ++ (if (blockOf conf start).1.getLast? = some '\n' then (blockOf conf start).1
              else (blockOf conf start).1 ++ ['\n']),
        ['\n'] ++ (conf.drop start).drop (blockOf conf start).2, ?_⟩
      simp only [ensure_line_in_section, hs, hk]
      simp [List.append_assoc]
    | some se =>
      have hexp := expandTemplateNoBackslash
        (((blockOf conf start).1.drop se.1).take (se.2 - se.1)) hnb
      refine ⟨conf.take start ++ (blockOf conf start).1.take se.1,
        (blockOf conf start).1.drop se.2 ++ (conf.drop start).drop (blockOf conf start).2, ?_⟩
      simp only [ensure_line_in_section, hs, hk, hexp]
      simp [List.append_assoc]

/-- Witness for the amended C10 on a concrete valid (backslash-free) input. -/
theorem c10_key_value_present_witness :
    ∃ u v, ensure_line_in_section "[daemon]\nAutomaticLoginEnable=false\n".data
        "daemon".data "WaylandEnable".data "false".data
      = u ++ (("WaylandEnable".data ++ ('=' :: "false".data)) ++ v) :=
  c10_key_value_present "[daemon]\nAutomaticLoginEnable=false\n".data
    "daemon".data "WaylandEnable".data "false".data
    (by decide) (by decide) (by decide)

/-- Claim C6 counterexample, in two parts, each violating the claim as stated.
Part 1 (the newline condition): on `"[daemon]\n"` the section matches with the
match end after the final newline and the located body is empty; although the
claim says a separating newline is inserted only when the body is non-empty,
the code inserts one, producing a blank line.
Part 2 (the hypothesis): in `"[daemon]\nWaylandEnable \n= x\n"` no line of the
body matches the key — the body's lines are `""`, `"WaylandEnable "`, `"= x"`
and `""`, and on a newline-free line `matchKeyAt` is exactly the per-line rule
`^\s*key\s*=\s*.*$` — yet the MULTILINE key pattern matches across the line
break (`\s*` spans it), so the code substitutes instead of appending and the
claimed appended text is not produced. -/
theorem c6_append_claim_counterexample :
    (sectionSearchAux "daemon".data 0 true "[daemon]\n".data = some 9
      ∧ (blockOf "[daemon]\n".data 9).1 = []
      ∧ ensure_line_in_section "[daemon]\n".data "daemon".data "WaylandEnable".data "false".data
        = "[daemon]\n\nWaylandEnable=false\n".data
      ∧ ("[daemon]\n\nWaylandEnable=false\n".data : List Char)
        ≠ "[daemon]\nWaylandEnable=false\n".data)
    ∧ (sectionSearchAux "daemon".data 0 true "[daemon]\nWaylandEnable \n= x\n".data = some 8
      ∧ linesOf (blockOf "[daemon]\nWaylandEnable \n= x\n".data 8).1
        = [[], "WaylandEnable ".data, "= x".data, []]
      ∧ (matchKeyAt [] "WaylandEnable".data).isSome = false
      ∧ (matchKeyAt "WaylandEnable ".data "WaylandEnable".data).isSome = false
      ∧ (matchKeyAt "= x".data "WaylandEnable".data).isSome = false
      ∧ ensure_line_in_section "[daemon]\nWaylandEnable \n= x\n".data
          "daemon".data "WaylandEnable".data "false".data
        = "[daemon]WaylandEnable=false\n".data
      ∧ ("[daemon]WaylandEnable=false\n".data : List Char)
        ≠ "[daemon]\nWaylandEnable \n= x\nWaylandEnable=false\n".data) := by
  refine ⟨⟨by decide, by decide, by decide, by decide⟩,
    by decide, by decide, by decide, by decide, by decide, by decide, by decide⟩

/-- Claim C6 as amended: when the section is found and the MULTILINE key
pattern finds no match in its body (part 2 of the counterexample forces this
hypothesis: the pattern's whitespace spans line breaks, so it is weaker than
"no single line matches"), the body is kept unchanged and extended by
`key=value\n`, with a newline inserted before it if and only if the body does
not already end with a newline — in particular also when the body is empty,
as part 1 of the counterexample forces; the text before the body and from the
next section header on is unchanged. -/
theorem c6_append_key_to_body (conf sec key value : List Char) (start : Nat)
    (hsec : sectionSearchAux sec 0 true conf = some start)
    (hkey : keySearchAux key 0 true (blockOf conf start).1 = none) :
    ensure_line_in_section conf sec key value
      = conf.take start
          ++ (((blockOf conf start).1
              ++ ((if (blockOf conf start).1.getLast? = some '\n' then [] else ['\n'])
                  ++ (key ++ ('=' :: (value ++ ['\n'])))))
              ++ (conf.drop start).drop (blockOf conf start).2) := by
  simp only [ensure_line_in_section, hsec, hkey]
  by_cases hl : (blockOf conf start).1.getLast? = some '\n'
  · simp [hl, List.append_assoc]
  · simp [hl, List.append_assoc]

/-- Witness for the amended C6 on `"[daemon]\nA=1\n"` with key
`"WaylandEnable"`: the body is `"\nA=1\n"`, ends with a newline, and the key
line is appended without a separating blank line. -/
theorem c6_append_key_to_body_witness :
    ensure_line_in_section "[daemon]\nA=1\n".data "daemon".data "WaylandEnable".data "false".data
      = ("[daemon]\nA=1\n".data : List Char).take 8
          ++ (((blockOf "[daemon]\nA=1\n".data 8).1
              ++ ((if (blockOf "[daemon]\nA=1\n".data 8).1.getLast? = some '\n' then [] else ['\n'])
                  ++ ("WaylandEnable".data ++ ('=' :: ("false".data ++ ['\n'])))))
              ++ (("[daemon]\nA=1\n".data : List Char).drop 8).drop
                  (blockOf "[daemon]\nA=1\n".data 8).2) :=
  c6_append_key_to_body "[daemon]\nA=1\n".data "daemon".data "WaylandEnable".data "false".data 8
    (by decide) (by decide)

/-! ### Lemmas for the duplicate-header claim -/

theorem appendSplitLe {p r w x : List Char} (h : p ++ r = w ++ x)
    (hle : p.length ≤ w.length) : ∃ w2, w = p ++ w2 ∧ r = w2 ++ x := by
  have hp : p = w.take p.length :=
    calc p = (p ++ r).take p.length := (List.take_left p r).symm
      _ = (w ++ x).take p.length := by rw [h]
      _ = w.take p.length := List.take_append_of_le_length hle
  have hw : w = p ++ w.drop p.length := by
    conv_lhs => rw [← List.take_append_drop p.length w]
    rw [← hp]
  refine ⟨w.drop p.length, hw, ?_⟩
  rw [hw, List.append_assoc] at h
  exact List.append_cancel_left h

theorem dropWhileAppendAll {q : Char → Bool} {w : List Char} (z : List Char)
    (h : ∀ a ∈ w, q a = true) : (w ++ z).dropWhile q = z.dropWhile q := by
  induction w with
  | nil => rfl
  | cons a w ih =>
    have ha : q a = true := h a (List.mem_cons_self a w)
    simp only [List.cons_append, List.dropWhile_cons, ha, if_true]
    exact ih (fun b hb => h b (List.mem_cons_of_mem a hb))

theorem rstripAppendWs {v : List Char} (u : List Char) (h : v.all isPySpace = true) :
    rstripWs (u ++ v) = rstripWs u := by
  rw [rstripWs, rstripWs, List.reverse_append]
  rw [dropWhileAppendAll _ (fun a ha => List.all_eq_true.mp h a (List.mem_reverse.mp ha))]

theorem rstripConcat {a : Char} (u : List Char) (ha : isPySpace a = false) :
    rstripWs (u ++ [a]) = u ++ [a] := by
  rw [rstripWs, List.reverse_append]
  simp only [List.reverse_cons, List.reverse_nil, List.nil_append, List.singleton_append,
    List.dropWhile_cons, ha]
  simp

theorem rstripPat (sec : List Char) :
    rstripWs ('[' :: (sec ++ [']'])) = '[' :: (sec ++ [']']) := by
  have h : '[' :: (sec ++ [']']) = ('[' :: sec) ++ [']'] := by simp
  rw [h]
  exact rstripConcat ('[' :: sec) (by decide)

theorem genericOfHeader {t sec : List Char} (hne : sec ≠ [])
    (h : isSectionHeaderLineB (firstLine t) sec = true) :
    matchGenericAt t = true := by
  rw [isSectionHeaderLineB, Bool.and_eq_true] at h
  obtain ⟨h1, h2⟩ := h
  obtain ⟨r1, hr1⟩ := isPrefixOfEx h1
  have hr1ws : r1.all isPySpace = true := by
    have hd2 : List.drop (sec.length + 2) (('[' :: (sec ++ [']'])) ++ r1) = r1 := by
      rw [← patLenEq sec]
      exact List.drop_left _ _
    rw [hr1, hd2] at h2
    exact h2
  have hfl : t.takeWhile (fun c => !(c = '\n')) = ('[' :: (sec ++ [']'])) ++ r1 := hr1
  rw [matchGenericAt, hfl, rstripAppendWs _ hr1ws, rstripPat]
  have hlen : 1 ≤ sec.length := by
    cases sec with
    | nil => exact absurd rfl hne
    | cons a s => simp
  simp [List.getLast?_concat]
  omega

theorem matchEndBound {t sec : List Char} {e : Nat} {w : List Char} {c : Char} {z : List Char}
    (hm : matchSectionAt t sec = some e) (hsplit : t = w ++ c :: z)
    (hc : isPySpace c = false) (hw : ('[' :: (sec ++ [']'])).length ≤ w.length) :
    e ≤ w.length := by
  simp only [matchSectionAt] at hm
  by_cases hp : ('[' :: (sec ++ [']'])).isPrefixOf t = true
  · rw [if_pos hp] at hm
    obtain ⟨rest0, hrest⟩ := isPrefixOfEx hp
    rw [hrest] at hsplit
    obtain ⟨w2, hw2, hrest0⟩ := appendSplitLe hsplit hw
    have hdrop : t.drop ('[' :: (sec ++ [']'])).length = rest0 := by
      rw [hrest]
      exact List.drop_left _ _
    rw [hdrop] at hm
    have hrun : wsRunLen rest0 ≤ w2.length := by
      rw [hrest0, wsRunLen]
      exact twLenBound w2 z hc
    have hlen0 : rest0.length = w2.length + (z.length + 1) := by
      rw [hrest0]
      simp
    by_cases hr : wsRunLen rest0 = rest0.length
    · omega
    · rw [if_neg hr] at hm
      cases hln : lastNl (rest0.take (wsRunLen rest0)) with
      | none => rw [hln] at hm; cases hm
      | some i =>
        rw [hln] at hm
        have hi : i < (rest0.take (wsRunLen rest0)).length := lastNlLt hln
        have hi2 : (rest0.take (wsRunLen rest0)).length ≤ wsRunLen rest0 := by
          rw [List.length_take]
          exact min_le_left _ _
        have he : ('[' :: (sec ++ [']'])).length + i = e := by
          injection hm
        have hwlen : w.length = sec.length + 2 + w2.length := by
          rw [hw2, List.length_append, patLenEq]
        rw [patLenEq] at he hw
        omega
  · rw [if_neg hp] at hm
    cases hm

theorem sectionSearchFound {sec : List Char} :
    ∀ (s : List Char) (anch : Bool) (t1 : List Char),
      SufAt s anch t1 → (matchSectionAt t1 sec).isSome = true →
      ∀ pos, ∃ tt e, SufAt s anch tt ∧ t1.length ≤ tt.length ∧
        matchSectionAt tt sec = some e ∧
        sectionSearchAux sec pos anch s = some (pos + ((s.length - tt.length) + e)) := by
  intro s
  induction s with
  | nil =>
    intro anch t1 h1 hm1 pos
    obtain ⟨u, hu⟩ := sufAtSuffix h1
    have ht1 : t1 = [] := by
      cases t1 with
      | nil => rfl
      | cons a as => simp at hu
    rw [ht1] at hm1
    have : matchSectionAt [] sec = none := by
      simp [matchSectionAt, List.isPrefixOf]
    rw [this] at hm1
    cases hm1
  | cons c cs ih =>
    intro anch t1 h1 hm1 pos
    cases hcur : (if anch then matchSectionAt (c :: cs) sec else none) with
    | some e0 =>
      have hanch : anch = true := by
        cases anch
        · simp at hcur
        · rfl
      refine ⟨c :: cs, e0, ?_, sufAtLen h1, ?_, ?_⟩
      · rw [hanch]; exact SufAt.refl _
      · rw [hanch] at hcur; simpa using hcur
      · simp only [sectionSearchAux, hcur]
        congr 1
        omega
    | none =>
      have h1' : SufAt cs (decide (c = '\n')) t1 := by
        cases h1 with
        | refl =>
          simp only [if_true] at hcur
          rw [hcur] at hm1
          cases hm1
        | tail h => exact h
      obtain ⟨tt, e, htt, hlen, hmtt, hres⟩ := ih (decide (c = '\n')) t1 h1' hm1 (pos + 1)
      refine ⟨tt, e, SufAt.tail htt, hlen, hmtt, ?_⟩
      simp only [sectionSearchAux, hcur]
      rw [hres]
      congr 1
      have hle : tt.length ≤ cs.length := sufAtLen htt
      simp only [List.length_cons]
      omega

theorem genericSearchFound :
    ∀ (s : List Char) (anch : Bool) (t : List Char),
      SufAt s anch t → matchGenericAt t = true →
      ∀ pos, ∃ q, genericSearchAux pos anch s = some q ∧ q ≤ pos + (s.length - t.length) := by
  intro s
  induction s with
  | nil =>
    intro anch t h hm pos
    obtain ⟨u, hu⟩ := sufAtSuffix h
    have ht : t = [] := by
      cases t with
      | nil => rfl
      | cons a as => simp at hu
    rw [ht] at hm
    cases hm
  | cons c cs ih =>
    intro anch t h hm pos
    cases hcur : (anch && matchGenericAt (c :: cs)) with
    | true =>
      refine ⟨pos, ?_, Nat.le_add_right _ _⟩
      simp only [genericSearchAux, hcur, if_true]
    | false =>
      have h' : SufAt cs (decide (c = '\n')) t := by
        cases h with
        | refl =>
          rw [hm] at hcur
          simp at hcur
        | tail h2 => exact h2
      obtain ⟨q, hq, hqle⟩ := ih (decide (c = '\n')) t h' hm (pos + 1)
      refine ⟨q, ?_, ?_⟩
      · simp only [genericSearchAux, hcur, Bool.false_eq_true, if_false]
        exact hq
      · have hle : t.length ≤ cs.length := sufAtLen h'
        simp only [List.length_cons]
        omega

theorem matchPrefix {t sec : List Char} {e : Nat} (hm : matchSectionAt t sec = some e) :
    ('[' :: (sec ++ [']'])).isPrefixOf t = true := by
  simp only [matchSectionAt] at hm
  by_cases hp : ('[' :: (sec ++ [']'])).isPrefixOf t = true
  · exact hp
  · rw [if_neg hp] at hm
    cases hm

/-- Claim C9: when two header lines match `[section]`, the patch operates only
on the first one — the search result lies strictly before the second duplicate
header, and the entire text from the second duplicate header's line on (hence
every body under a later duplicate header) survives byte-identically as a
suffix of the output.  `t1` and `t2` are the text's suffixes at the two header
lines' anchors (`t2` the later, so shorter, one). -/
theorem c9_first_header_wins (conf sec key value t1 t2 : List Char)
    (hne : sec ≠ []) (hnl : '\n' ∉ sec)
    (h1 : SufAt conf true t1) (hh1 : isSectionHeaderLineB (firstLine t1) sec = true)
    (h2 : SufAt conf true t2) (hh2 : isSectionHeaderLineB (firstLine t2) sec = true)
    (hlt : t2.length < t1.length) :
    ∃ st, sectionSearchAux sec 0 true conf = some st
      ∧ st ≤ conf.length - t2.length
      ∧ ∃ u, ensure_line_in_section conf sec key value = u ++ t2 := by
  have hm1 : (matchSectionAt t1 sec).isSome = true := matchOfHeader hh1
  obtain ⟨tt, e, htt, hlen, hmtt, hres⟩ := sectionSearchFound conf true t1 h1 hm1 0
  simp only [Nat.zero_add] at hres
  -- t2 starts with '['
  have hh2' := hh2
  rw [isSectionHeaderLineB, Bool.and_eq_true] at hh2'
  obtain ⟨r2, hr2⟩ := isPrefixOfEx hh2'.1
  have hsplit2 : t2 = firstLine t2 ++ t2.dropWhile (fun c => !(c = '\n')) :=
    (List.takeWhile_append_dropWhile _ _).symm
  obtain ⟨z2, ht2⟩ : ∃ z2, t2 = '[' :: z2 := by
    refine ⟨(sec ++ [']']) ++ r2 ++ t2.dropWhile (fun c => !(c = '\n')), ?_⟩
    conv_lhs => rw [hsplit2, hr2]
    simp [List.append_assoc]
  -- t2 is preceded by a newline in conf
  rcases sufAtCases h2 with ⟨-, hteq⟩ | ⟨u2, hu2⟩
  · exfalso
    have := sufAtLen h1
    rw [hteq] at hlt
    omega
  obtain ⟨a1, ha1⟩ := sufAtSuffix htt
  have hu2' : conf = (u2 ++ ['\n']) ++ t2 := by
    rw [hu2]
    simp
  have e1 : conf.length = a1.length + tt.length := by rw [ha1]; simp
  have e2 : conf.length = (u2.length + 1) + t2.length := by
    rw [hu2]
    simp
    omega
  have h5 : a1 ++ tt = (u2 ++ ['\n']) ++ t2 := ha1.symm.trans hu2'
  have hle12 : a1.length ≤ (u2 ++ ['\n']).length := by
    simp only [List.length_append, List.length_cons, List.length_nil]
    omega
  obtain ⟨w2, hw2, htt2⟩ := appendSplitLe h5 hle12
  have ew : tt.length = w2.length + t2.length := by rw [htt2]; simp
  rcases List.eq_nil_or_concat w2 with rfl | ⟨w3, c0, hconc⟩
  · exfalso
    simp at ew
    omega
  rw [List.concat_eq_append] at hconc
  have hc0 : c0 = '\n' := by
    have h6 : (a1 ++ w2).getLast? = some '\n' := by
      rw [← hw2]
      exact List.getLast?_concat _
    have h7 : (a1 ++ w2).getLast? = some c0 := by
      rw [hconc, ← List.append_assoc]
      exact List.getLast?_concat _
    rw [h7] at h6
    exact Option.some.inj h6
  obtain ⟨rest0, hrest0⟩ := isPrefixOfEx (matchPrefix hmtt)
  have htt3 : tt = w3 ++ ('\n' :: t2) := by
    rw [htt2, hconc, hc0]
    simp
  have hpatw : ('[' :: (sec ++ [']'])).length ≤ w2.length := by
    rcases Nat.lt_or_ge w3.length ('[' :: (sec ++ [']'])).length with hcase | hcase
    · exfalso
      have h8 : w3 ++ ('\n' :: t2) = ('[' :: (sec ++ [']'])) ++ rest0 :=
        htt3.symm.trans hrest0
      obtain ⟨p2, hpat, hrem⟩ := appendSplitLe h8 (Nat.le_of_lt hcase)
      cases p2 with
      | nil =>
        have hl := congrArg List.length hpat
        rw [patLenEq] at hl hcase
        simp at hl
        omega
      | cons pc p2' =>
        have hpc : pc = '\n' := by
          simp only [List.cons_append] at hrem
          injection hrem with h9 h10
          exact h9.symm
        have hmem : '\n' ∈ ('[' :: (sec ++ [']'])) := by
          rw [hpat, hpc]
          exact List.mem_append_right _ (List.mem_cons_self _ _)
        have hfree := patNlFree hnl '\n' hmem
        simp at hfree
    · have hlw : w2.length = w3.length + 1 := by rw [hconc]; simp
      omega
  have htt4 : tt = w2 ++ ('[' :: z2) := by rw [htt2, ht2]
  have hebound : e ≤ w2.length := matchEndBound hmtt htt4 (by decide) hpatw
  have hconfle : tt.length ≤ conf.length := sufAtLen htt
  obtain ⟨st, hstdef⟩ : ∃ st, st = (conf.length - tt.length) + e := ⟨_, rfl⟩
  rw [← hstdef] at hres
  refine ⟨st, hres, ?_, ?_⟩
  · omega
  · -- the suffix from the second header survives
    have hst_le : st ≤ u2.length + 1 := by omega
    have hsufTail : SufAt (conf.drop st) true t2 := by
      rcases Nat.lt_or_ge st (u2.length + 1) with hcase | hcase
      · have hdrop : conf.drop st = u2.drop st ++ '\n' :: t2 := by
          rw [hu2]
          exact List.drop_append_of_le_length (by omega)
        rw [hdrop]
        exact sufAtOfAppend _ _ _
      · have hcase' : st = u2.length + 1 := by omega
        have hdrop : conf.drop st = t2 := by
          rw [hcase', hu2]
          have := @List.drop_append Char u2 ('\n' :: t2) 1
          simpa using this
        rw [hdrop]
        exact SufAt.refl _
    have hgen : matchGenericAt t2 = true := genericOfHeader hne hh2
    obtain ⟨q, hq, hqle⟩ :=
      genericSearchFound (conf.drop st) true t2 hsufTail hgen 0
    obtain ⟨w4, hw4⟩ := sufAtSuffix hsufTail
    have hlw4 : q ≤ w4.length := by
      have hl4 : (conf.drop st).length = w4.length + t2.length := by rw [hw4]; simp
      omega
    have hdropq : (conf.drop st).drop q = w4.drop q ++ t2 := by
      rw [hw4]
      exact List.drop_append_of_le_length hlw4
    have hblock : blockOf conf st = ((conf.drop st).take q, q) := by
      simp only [blockOf, hq]
    have hfin : ∀ M : List Char,
        conf.take st ++ (M ++ (conf.drop st).drop q)
          = (conf.take st ++ (M ++ w4.drop q)) ++ t2 := by
      intro M
      rw [hdropq]
      simp [List.append_assoc]
    simp only [ensure_line_in_section, hres, hblock]
    exact ⟨_, hfin _⟩

/-- Witness for C9: the text `"[a]\nk=1\n[a]\nz=2\n"` has two `[a]` headers;
the patch touches only the first block and keeps the second one (suffix
`"[a]\nz=2\n"`) byte-identical. -/
theorem c9_first_header_wins_witness :
    ∃ st, sectionSearchAux "a".data 0 true "[a]\nk=1\n[a]\nz=2\n".data = some st
      ∧ st ≤ ("[a]\nk=1\n[a]\nz=2\n".data : List Char).length
          - ("[a]\nz=2\n".data : List Char).length
      ∧ ∃ u, ensure_line_in_section "[a]\nk=1\n[a]\nz=2\n".data "a".data "k".data "9".data
          = u ++ "[a]\nz=2\n".data :=
  c9_first_header_wins "[a]\nk=1\n[a]\nz=2\n".data "a".data "k".data "9".data
    "[a]\nk=1\n[a]\nz=2\n".data "[a]\nz=2\n".data
    (by decide) (by decide)
    (SufAt.refl _) (by decide)
    (by
      rw [show ("[a]\nk=1\n[a]\nz=2\n".data : List Char)
          = "[a]\nk=1".data ++ '\n' :: "[a]\nz=2\n".data from by decide]
      exact sufAtOfAppend _ _ _)
    (by decide) (by decide)
